import Mathlib

set_option maxHeartbeats 1000000

/-
Verification development for the gomuks synchronization core.

Shallow embedding of:
* `HiClient.PaginateServer` (pkg/hicli/paginate.go): single-flight pagination
  with duplicate compaction, terminal sentinel handling, exhaustion discovery
  and the post-commit decryption wakeup.
* `Gomuks.HandleWebsocket` / `sendInitialData` (websocket.go): bounded
  outbound queue backpressure, idempotent cleanup and the initial room batch
  loop.
* The room-list maintainer (StateStore.applySync, modelled from the spec:
  the TypeScript statestore source is not part of the sampled tree).
* `Gomuks.validateAuth` / `generateToken` (the web auth token layer).

External collaborators (database, wire client, crypto, JSON) are modelled as
explicit oracle inputs or function parameters, matching the spec's component
boundaries.
-/

namespace Hicli

/-- The result `processEvent` yields for one raw server event: the row ID the
store assigned (an upsert, so re-processing the same event yields the same
row ID) together with the session requests queued because the event could not
be decrypted immediately. -/
structure PEvent where
  rowID : Nat
  sessionRequests : List Nat
deriving DecidableEq

/-- The slice of the stored room that `PaginateServer` reads: its pagination
cursor (`prev_batch`). -/
structure Room where
  prevBatch : String
deriving DecidableEq

/-- Terminal sentinel stored in `prev_batch` once history is exhausted
(`database.PrevBatchPaginationComplete`). -/
def PrevBatchPaginationComplete : String := "fi.mau.gomuks.pagination_complete"

/-- The part of the `/messages` response `PaginateServer` consumes:
the event chunk (newest first) and the `end` token. -/
structure MessagesResp where
  chunk : List PEvent
  endToken : String
deriving DecidableEq

/-- Oracle for the external collaborators of one `PaginateServer` call:
the database room lookup, the wire client response, the current timeline
contents (for `Timeline.Has`), and success/failure of the storage writes. -/
structure World where
  roomResult : Except String Room
  messagesResult : Except String MessagesResp
  timeline : List Nat
  txnCtxErr : Bool
  setPrevBatchOK : Bool
  txnOpsOK : Bool

inductive PagErr where
  | alreadyInProgress
  | dbError
  | serverError
  | txnFailed
deriving DecidableEq

/-- `PaginationResponse`: the events slice (entries are `Option` because the
Go slice is preallocated with nil pointers) and `has_more`. -/
structure PagResult where
  events : List (Option PEvent)
  hasMore : Bool
deriving DecidableEq

/-- Mutable state of the per-chunk loop inside the transaction: the
preallocated `events` and `eventRowIDs` arrays, the duplicate offset
`iOffset`, and the decryption queue accumulator (a map keyed by session in
Go; only membership/emptiness matter, so it is kept as the list of queued
session IDs). -/
structure LoopState where
  events : List (Option PEvent)
  rowIDs : List Nat
  iOffset : Nat
  queue : List Nat
deriving DecidableEq

/-- The `for i, evt := range resp.Chunk` loop of `PaginateServer`:
process the event, skip it (bumping `iOffset`) when its row ID is already in
the timeline, otherwise write it at compacted index `i - iOffset`. -/
def pagLoop (timeline : List Nat) : List PEvent → Nat → LoopState → LoopState
  | [], _, s => s
  | e :: rest, i, s =>
    if timeline.contains e.rowID then
      pagLoop timeline rest (i + 1)
        ⟨s.events, s.rowIDs, s.iOffset + 1, s.queue ++ e.sessionRequests⟩
    else
      pagLoop timeline rest (i + 1)
        ⟨s.events.set (i - s.iOffset) (some e), s.rowIDs.set (i - s.iOffset) e.rowID,
         s.iOffset, s.queue ++ e.sessionRequests⟩

/-- Observable outcome of the body of `PaginateServer` (everything between
the interrupter bookkeeping): the returned value, whether the wire client was
contacted, the `SetPrevBatch` calls outside and inside the transaction, the
row IDs handed to `Timeline.Prepend`, the number of `WakeupRequestQueue`
calls, and whether the transaction committed. -/
structure BodyOut where
  result : Except PagErr PagResult
  messagesCalled : Bool
  prevBatchOutsideTxn : Option String
  prevBatchInTxn : Option String
  prepended : Option (List Nat)
  wakeups : Nat
  txnCommitted : Bool

/-- Body of `PaginateServer` after the interrupter was inserted (lines
232-316 of paginate.go). -/
def pagServerBody (w : World) : BodyOut :=
  match w.roomResult with
  | .error _ => ⟨.error .dbError, false, none, none, none, 0, false⟩
  | .ok room =>
    if room.prevBatch = PrevBatchPaginationComplete then
      ⟨.ok ⟨[], false⟩, false, none, none, none, 0, false⟩
    else
      match w.messagesResult with
      | .error _ => ⟨.error .serverError, true, none, none, none, 0, false⟩
      | .ok resp =>
        let n := resp.chunk.length
        let events0 : List (Option PEvent) := List.replicate n none
        let endTok := if resp.endToken = "" then PrevBatchPaginationComplete else resp.endToken
        if endTok = PrevBatchPaginationComplete ∨ n = 0 then
          if w.setPrevBatchOK then
            ⟨.ok ⟨events0, endTok != ""⟩, true, some endTok, none, none, 0, false⟩
          else
            ⟨.error .dbError, true, some endTok, none, none, 0, false⟩
        else
          if w.txnCtxErr then
            ⟨.error .txnFailed, true, none, none, none, 0, false⟩
          else
            let st := pagLoop w.timeline resp.chunk 0 ⟨events0, List.replicate n 0, 0, []⟩
            if n ≤ st.iOffset then
              ⟨.ok ⟨[], true⟩, true, none, none, none, 0, true⟩
            else
              let kept := n - st.iOffset
              if w.txnOpsOK then
                ⟨.ok ⟨st.events.take kept, true⟩, true, none, some endTok,
                  some (st.rowIDs.take kept), if st.queue = [] then 0 else 1, true⟩
              else
                ⟨.error .txnFailed, true, none, none, none, 0, false⟩

/-- Outcome of a full `PaginateServer` call, including the final state of the
pagination interrupter mapping. -/
structure PagOutcome extends BodyOut where
  interrupter : List String

/-- `PaginateServer` (lines 217-317 of paginate.go): check/insert the
interrupter entry under the lock, run the body, and remove the entry on the
way out (the `defer`). -/
def pagServer (w : World) (itr : List String) (rid : String) : PagOutcome :=
  if rid ∈ itr then
    ⟨⟨.error .alreadyInProgress, false, none, none, none, 0, false⟩, itr⟩
  else
    ⟨pagServerBody w, (rid :: itr).erase rid⟩

/-- All session requests the chunk's events queue for deferred decryption. -/
def sessionsOf : List PEvent → List Nat
  | [] => []
  | e :: rest => e.sessionRequests ++ sessionsOf rest

/-- The event chunk the server returned (empty when the call failed). -/
def chunkOf (w : World) : List PEvent :=
  match w.messagesResult with
  | .error _ => []
  | .ok resp => resp.chunk

/-- Events of the chunk whose row IDs are not yet in the timeline, in chunk
order: the intended contents of the compacted arrays. -/
def keptEvents (timeline : List Nat) (chunk : List PEvent) : List PEvent :=
  chunk.filter (fun e => !timeline.contains e.rowID)

/-- Number of chunk events already present in the timeline. -/
def dupCount (timeline : List Nat) (chunk : List PEvent) : Nat :=
  (chunk.filter (fun e => timeline.contains e.rowID)).length

theorem set_at_append_length {α : Type} (l r : List α) (v a : α) :
    (l ++ a :: r).set l.length v = l ++ v :: r := by
  induction l with
  | nil => rfl
  | cons x xs ih => simp [List.set, ih]

theorem kept_length_add_dupCount (tl : List Nat) (chunk : List PEvent) :
    (keptEvents tl chunk).length + dupCount tl chunk = chunk.length := by
  induction chunk with
  | nil => rfl
  | cons e rest ih =>
    by_cases h : tl.contains e.rowID <;>
      simp only [keptEvents, dupCount, List.filter_cons, h] at ih ⊢ <;>
      simp_all <;> omega

theorem set_map_append_replicate {α β : Type} (f : α → β) (ks : List α) (pad : Nat)
    (z v : β) :
    (ks.map f ++ List.replicate (pad + 1) z).set ks.length v
      = ks.map f ++ v :: List.replicate pad z := by
  rw [List.replicate_succ, ← List.length_map ks f, set_at_append_length]

theorem pagLoop_eq (tl : List Nat) (rest : List PEvent) :
    ∀ (ks : List PEvent) (dups pad i : Nat) (q : List Nat),
      i = ks.length + dups → rest.length ≤ pad →
      pagLoop tl rest i
        ⟨ks.map some ++ List.replicate pad none, ks.map (·.rowID) ++ List.replicate pad 0, dups, q⟩
      = ⟨(ks ++ keptEvents tl rest).map some
            ++ List.replicate (pad - (keptEvents tl rest).length) none,
         (ks ++ keptEvents tl rest).map (·.rowID)
            ++ List.replicate (pad - (keptEvents tl rest).length) 0,
         dups + dupCount tl rest,
         q ++ sessionsOf rest⟩ := by
  induction rest with
  | nil =>
    intro ks dups pad i q _ _
    simp [pagLoop, keptEvents, dupCount, sessionsOf]
  | cons e rest ih =>
    intro ks dups pad i q hi hpad
    by_cases h : e.rowID ∈ tl
    · have hrest : rest.length ≤ pad := by
        simp only [List.length_cons] at hpad; omega
      rw [show pagLoop tl (e :: rest) i
            ⟨ks.map some ++ List.replicate pad none,
             ks.map (·.rowID) ++ List.replicate pad 0, dups, q⟩
          = pagLoop tl rest (i + 1)
            ⟨ks.map some ++ List.replicate pad none,
             ks.map (·.rowID) ++ List.replicate pad 0, dups + 1,
             q ++ e.sessionRequests⟩ from by simp [pagLoop, h]]
      rw [ih ks (dups + 1) pad (i + 1) (q ++ e.sessionRequests) (by omega) hrest]
      simp only [LoopState.mk.injEq]
      refine ⟨?_, ?_, ?_, ?_⟩
      · simp [keptEvents, List.filter_cons, h]
      · simp [keptEvents, List.filter_cons, h]
      · simp [dupCount, List.filter_cons, h]
        omega
      · simp [sessionsOf]
    · obtain ⟨pad', rfl⟩ : ∃ pad', pad = pad' + 1 :=
        ⟨pad - 1, by simp only [List.length_cons] at hpad; omega⟩
      have hrest : rest.length ≤ pad' := by
        simp only [List.length_cons] at hpad; omega
      have hidx : i - dups = ks.length := by omega
      rw [show pagLoop tl (e :: rest) i
            ⟨ks.map some ++ List.replicate (pad' + 1) none,
             ks.map (·.rowID) ++ List.replicate (pad' + 1) 0, dups, q⟩
          = pagLoop tl rest (i + 1)
            ⟨(ks ++ [e]).map some ++ List.replicate pad' none,
             (ks ++ [e]).map (·.rowID) ++ List.replicate pad' 0, dups,
             q ++ e.sessionRequests⟩ from by
        simp [pagLoop, h, hidx, List.replicate_succ]]
      rw [ih (ks ++ [e]) dups pad' (i + 1) (q ++ e.sessionRequests) (by simp; omega) hrest]
      simp only [LoopState.mk.injEq]
      refine ⟨?_, ?_, ?_, ?_⟩
      · simp [keptEvents, List.filter_cons, h]
      · simp [keptEvents, List.filter_cons, h]
      · simp [dupCount, List.filter_cons, h]
      · simp [sessionsOf]

theorem pagLoop_run (tl : List Nat) (chunk : List PEvent) :
    pagLoop tl chunk 0
      ⟨List.replicate chunk.length none, List.replicate chunk.length 0, 0, []⟩
    = ⟨(keptEvents tl chunk).map some
          ++ List.replicate (chunk.length - (keptEvents tl chunk).length) none,
       (keptEvents tl chunk).map (·.rowID)
          ++ List.replicate (chunk.length - (keptEvents tl chunk).length) 0,
       dupCount tl chunk, sessionsOf chunk⟩ := by
  have := pagLoop_eq tl chunk [] 0 chunk.length 0 [] rfl (le_refl _)
  simpa using this

theorem pagServer_busy (w : World) (itr : List String) (rid : String) (h : rid ∈ itr) :
    pagServer w itr rid = ⟨⟨.error .alreadyInProgress, false, none, none, none, 0, false⟩, itr⟩ := by
  simp [pagServer, h]

theorem pagServer_free (w : World) (itr : List String) (rid : String) (h : rid ∉ itr) :
    pagServer w itr rid = ⟨pagServerBody w, itr⟩ := by
  simp [pagServer, h, List.erase_cons_head]

theorem pagServerBody_txn (w : World) (room : Room) (resp : MessagesResp)
    (h2 : w.roomResult = .ok room) (h3 : room.prevBatch ≠ PrevBatchPaginationComplete)
    (h4 : w.messagesResult = .ok resp) (h5 : resp.endToken ≠ "")
    (h6 : resp.endToken ≠ PrevBatchPaginationComplete) (h7 : resp.chunk ≠ [])
    (h8 : w.txnCtxErr = false) :
    pagServerBody w =
      if resp.chunk.length ≤ dupCount w.timeline resp.chunk then
        ⟨.ok ⟨[], true⟩, true, none, none, none, 0, true⟩
      else if w.txnOpsOK then
        ⟨.ok ⟨(keptEvents w.timeline resp.chunk).map some, true⟩, true, none,
          some resp.endToken, some ((keptEvents w.timeline resp.chunk).map (·.rowID)),
          if sessionsOf resp.chunk = [] then 0 else 1, true⟩
      else ⟨.error .txnFailed, true, none, none, none, 0, false⟩ := by
  have hpart := kept_length_add_dupCount w.timeline resp.chunk
  have hn0 : resp.chunk.length ≠ 0 := fun hh => h7 (List.length_eq_zero.mp hh)
  simp only [pagServerBody, h2, h4]
  rw [if_neg h3, if_neg h5, if_neg (not_or.mpr ⟨h6, hn0⟩), h8]
  simp only [Bool.false_eq_true, if_false, pagLoop_run]
  by_cases hd : resp.chunk.length ≤ dupCount w.timeline resp.chunk
  · simp [hd]
  · have hkl : resp.chunk.length - dupCount w.timeline resp.chunk
        = (keptEvents w.timeline resp.chunk).length := by omega
    simp only [hd, if_false, hkl,
      List.take_left' (List.length_map _ _), List.take_left' (List.length_map _ _)]

theorem pagServerBody_exhaust (w : World) (room : Room) (resp : MessagesResp)
    (h2 : w.roomResult = .ok room) (h3 : room.prevBatch ≠ PrevBatchPaginationComplete)
    (h4 : w.messagesResult = .ok resp)
    (h5 : resp.endToken = "" ∨ resp.endToken = PrevBatchPaginationComplete ∨ resp.chunk = [])
    (h6 : w.setPrevBatchOK = true) :
    pagServerBody w =
      ⟨.ok ⟨List.replicate resp.chunk.length none,
            (if resp.endToken = "" then PrevBatchPaginationComplete else resp.endToken) != ""⟩,
        true,
        some (if resp.endToken = "" then PrevBatchPaginationComplete else resp.endToken),
        none, none, 0, false⟩ := by
  have hsent : PrevBatchPaginationComplete ≠ "" := by decide
  have hcond : (if resp.endToken = "" then PrevBatchPaginationComplete else resp.endToken)
      = PrevBatchPaginationComplete ∨ resp.chunk.length = 0 := by
    rcases h5 with h | h | h
    · left; rw [if_pos h]
    · left
      have hne : resp.endToken ≠ "" := by rw [h]; exact hsent
      rw [if_neg hne]; exact h
    · right; rw [h]; rfl
  simp only [pagServerBody, h2, h4]
  rw [if_neg h3, if_pos hcond, h6]
  simp

theorem keptEvents_sublist (tl : List Nat) (chunk : List PEvent) :
    (keptEvents tl chunk).Sublist chunk := List.filter_sublist _

theorem mem_keptEvents (tl : List Nat) (chunk : List PEvent) (e : PEvent)
    (h : e ∈ keptEvents tl chunk) : tl.contains e.rowID = false := by
  have := List.of_mem_filter h
  simpa using this

/-- C2: a `PaginateServer` call for a room that already has a live
`paginationInterrupter` entry returns the distinct "pagination is already in
progress" error, contacts no external system and changes nothing; every call
that does insert an entry has the entry removed when the call completes, on
every path (the body's success and error returns and cancellation all flow
through the `defer`), so the mapping is restored to its pre-call state. -/
theorem c2_single_flight (w : World) (itr : List String) (rid : String) :
    (rid ∈ itr →
      (pagServer w itr rid).result = .error .alreadyInProgress ∧
      (pagServer w itr rid).messagesCalled = false ∧
      (pagServer w itr rid).prevBatchOutsideTxn = none ∧
      (pagServer w itr rid).prevBatchInTxn = none ∧
      (pagServer w itr rid).prepended = none ∧
      (pagServer w itr rid).wakeups = 0 ∧
      (pagServer w itr rid).interrupter = itr) ∧
    (rid ∉ itr → (pagServer w itr rid).interrupter = itr) := by
  constructor
  · intro h
    rw [pagServer_busy w itr rid h]
    exact ⟨rfl, rfl, rfl, rfl, rfl, rfl, rfl⟩
  · intro h
    rw [pagServer_free w itr rid h]

/-- C2 witness: a busy room is rejected with the distinct error and a free
room's interrupter entry is gone after the call. -/
theorem c2_single_flight_witness :
    (pagServer ⟨.ok ⟨"tokA"⟩, .ok ⟨[], "tokB"⟩, [], false, true, true⟩ ["!r"] "!r").result
      = .error .alreadyInProgress ∧
    (pagServer ⟨.ok ⟨"tokA"⟩, .ok ⟨[], "tokB"⟩, [], false, true, true⟩ [] "!r").interrupter
      = [] := by
  constructor
  · exact ((c2_single_flight ⟨.ok ⟨"tokA"⟩, .ok ⟨[], "tokB"⟩, [], false, true, true⟩
      ["!r"] "!r").1 (by simp)).1
  · exact (c2_single_flight ⟨.ok ⟨"tokA"⟩, .ok ⟨[], "tokB"⟩, [], false, true, true⟩
      [] "!r").2 (by simp)

/-- C3: when the stored pagination cursor is the terminal sentinel
`PrevBatchPaginationComplete`, `PaginateServer` returns an empty result with
`has_more = false` and never reaches the `Messages` network call. -/
theorem c3_terminal_sentinel (w : World) (itr : List String) (rid : String) (room : Room)
    (h1 : rid ∉ itr) (h2 : w.roomResult = .ok room)
    (h3 : room.prevBatch = PrevBatchPaginationComplete) :
    (pagServer w itr rid).result = .ok ⟨[], false⟩ ∧
    (pagServer w itr rid).messagesCalled = false ∧
    (pagServer w itr rid).interrupter = itr := by
  rw [pagServer_free w itr rid h1]
  refine ⟨?_, ?_, rfl⟩ <;> simp [pagServerBody, h2, h3]

/-- C3 witness at a concrete room whose cursor is the sentinel. -/
theorem c3_terminal_sentinel_witness :
    (pagServer ⟨.ok ⟨PrevBatchPaginationComplete⟩, .error "unused", [], false, true, true⟩
        [] "!r").result = .ok ⟨[], false⟩ ∧
    (pagServer ⟨.ok ⟨PrevBatchPaginationComplete⟩, .error "unused", [], false, true, true⟩
        [] "!r").messagesCalled = false := by
  have h := c3_terminal_sentinel
    ⟨.ok ⟨PrevBatchPaginationComplete⟩, .error "unused", [], false, true, true⟩
    [] "!r" ⟨PrevBatchPaginationComplete⟩ (by simp) rfl rfl
  exact ⟨h.1, h.2.1⟩

/-- C1 (amended): after one server page is applied transactionally, the
compacted `events`/`eventRowIDs` arrays are exactly the chunk's
not-yet-in-timeline events in chunk order (so duplicates against the timeline
are excluded, relative order is preserved, there are no nil holes, the length
is the chunk length minus the duplicate count, and index-wise the row-ID
array is the row-ID projection of the event array); provided additionally
that no two chunk entries carry the same row ID, the prepended row references
are pairwise distinct. Without that proviso a repeated chunk event yields a
repeated row reference (see the counterexample). -/
theorem c1_dedup_compaction (w : World) (itr : List String) (rid : String)
    (room : Room) (resp : MessagesResp)
    (h1 : rid ∉ itr) (h2 : w.roomResult = .ok room)
    (h3 : room.prevBatch ≠ PrevBatchPaginationComplete)
    (h4 : w.messagesResult = .ok resp) (h5 : resp.endToken ≠ "")
    (h6 : resp.endToken ≠ PrevBatchPaginationComplete) (h7 : resp.chunk ≠ [])
    (h8 : w.txnCtxErr = false) (h9 : w.txnOpsOK = true) :
    (pagServer w itr rid).result
        = .ok ⟨(keptEvents w.timeline resp.chunk).map some, true⟩ ∧
    (keptEvents w.timeline resp.chunk ≠ [] →
      (pagServer w itr rid).prepended
        = some ((keptEvents w.timeline resp.chunk).map (·.rowID))) ∧
    (keptEvents w.timeline resp.chunk = [] → (pagServer w itr rid).prepended = none) ∧
    (keptEvents w.timeline resp.chunk).Sublist resp.chunk ∧
    (∀ e ∈ keptEvents w.timeline resp.chunk, w.timeline.contains e.rowID = false) ∧
    (keptEvents w.timeline resp.chunk).length + dupCount w.timeline resp.chunk
        = resp.chunk.length ∧
    ((resp.chunk.map (·.rowID)).Nodup →
      ((keptEvents w.timeline resp.chunk).map (·.rowID)).Nodup) := by
  have hpart := kept_length_add_dupCount w.timeline resp.chunk
  rw [pagServer_free w itr rid h1]
  have hbody := pagServerBody_txn w room resp h2 h3 h4 h5 h6 h7 h8
  refine ⟨?_, ?_, ?_, keptEvents_sublist _ _, mem_keptEvents _ _, hpart, ?_⟩
  · by_cases hk : keptEvents w.timeline resp.chunk = []
    · have hd : resp.chunk.length ≤ dupCount w.timeline resp.chunk := by
        rw [hk] at hpart; simp at hpart; omega
      rw [hbody] at *
      simp [hd, hk]
    · have hd : ¬ resp.chunk.length ≤ dupCount w.timeline resp.chunk := by
        have : (keptEvents w.timeline resp.chunk).length ≠ 0 := by
          simpa using hk
        omega
      rw [hbody] at *
      simp [hd, h9]
  · intro hk
    have hd : ¬ resp.chunk.length ≤ dupCount w.timeline resp.chunk := by
      have : (keptEvents w.timeline resp.chunk).length ≠ 0 := by simpa using hk
      omega
    rw [hbody] at *
    simp [hd, h9]
  · intro hk
    have hd : resp.chunk.length ≤ dupCount w.timeline resp.chunk := by
      rw [hk] at hpart; simp at hpart; omega
    rw [hbody] at *
    simp [hd]
  · intro hnd
    exact hnd.sublist ((keptEvents_sublist w.timeline resp.chunk).map _)

/-- C1 counterexample: a server chunk that contains the same event twice
(processing is an upsert, so both copies resolve to row ID 1, which is not
yet in the timeline) makes `PaginateServer` hand the duplicate row reference
`[1, 1]` to the timeline prepend, refuting "the arrays handed to the timeline
prepend contain no duplicate row references" as universally stated. -/
theorem c1_dedup_counterexample :
    (pagServer ⟨.ok ⟨"tokA"⟩, .ok ⟨[⟨1, []⟩, ⟨1, []⟩], "tokB"⟩, [], false, true, true⟩
        [] "!r").prepended = some [1, 1] ∧ ¬ ([1, 1] : List Nat).Nodup := by
  constructor
  · rfl
  · decide

/-- C1 witness: a three-event chunk whose middle event is already in the
timeline is compacted to the two fresh events with matching row IDs. -/
theorem c1_dedup_compaction_witness :
    (pagServer ⟨.ok ⟨"tokA"⟩, .ok ⟨[⟨1, []⟩, ⟨2, []⟩, ⟨3, []⟩], "tokB"⟩, [2], false, true, true⟩
        [] "!r").result
      = .ok ⟨(keptEvents [2] [⟨1, []⟩, ⟨2, []⟩, ⟨3, []⟩]).map some, true⟩ ∧
    (pagServer ⟨.ok ⟨"tokA"⟩, .ok ⟨[⟨1, []⟩, ⟨2, []⟩, ⟨3, []⟩], "tokB"⟩, [2], false, true, true⟩
        [] "!r").prepended
      = some ((keptEvents [2] [⟨1, []⟩, ⟨2, []⟩, ⟨3, []⟩]).map (·.rowID)) := by
  have h := c1_dedup_compaction
    ⟨.ok ⟨"tokA"⟩, .ok ⟨[⟨1, []⟩, ⟨2, []⟩, ⟨3, []⟩], "tokB"⟩, [2], false, true, true⟩
    [] "!r" ⟨"tokA"⟩ ⟨[⟨1, []⟩, ⟨2, []⟩, ⟨3, []⟩], "tokB"⟩
    (by simp) rfl (by decide) rfl (by decide) (by decide) (by decide) rfl rfl
  exact ⟨h.1, h.2.1 (by decide)⟩

/-- Wakeup behaviour of the body on every path: `WakeupRequestQueue` runs
exactly once when the transaction committed with a non-empty prepend and at
least one event queued a session request, and zero times otherwise. -/
theorem pagServerBody_wakeups (w : World) :
    (pagServerBody w).wakeups =
      if (pagServerBody w).txnCommitted = true ∧ (pagServerBody w).prepended ≠ none
          ∧ sessionsOf (chunkOf w) ≠ [] then 1 else 0 := by
  rcases hw : w.roomResult with e | room
  · simp [pagServerBody, hw]
  · by_cases hs : room.prevBatch = PrevBatchPaginationComplete
    · simp [pagServerBody, hw, hs]
    · rcases hm : w.messagesResult with e | resp
      · simp [pagServerBody, hw, hs, hm]
      · simp only [pagServerBody, chunkOf, hw, hm, if_neg hs]
        by_cases hex : (if resp.endToken = "" then PrevBatchPaginationComplete
            else resp.endToken) = PrevBatchPaginationComplete ∨ resp.chunk.length = 0
        · rw [if_pos hex]
          by_cases hok : w.setPrevBatchOK <;> simp [hok]
        · rw [if_neg hex]
          by_cases hctx : w.txnCtxErr
          · simp [hctx]
          · simp only [Bool.not_eq_true] at hctx
            rw [hctx]
            simp only [Bool.false_eq_true, if_false, pagLoop_run]
            by_cases hd : resp.chunk.length ≤ dupCount w.timeline resp.chunk
            · simp [hd]
            · by_cases hops : w.txnOpsOK
              · by_cases hq : sessionsOf resp.chunk = [] <;> simp [hd, hops, hq]
              · simp [hd, hops]

/-- C7 (amended): per `PaginateServer` call, the decryption wakeup fires
exactly once when the page transaction committed with a non-empty timeline
prepend and at least one chunk event queued a session request, and zero times
otherwise; in particular a committed all-duplicates page sends no wakeup even
when its events queued session requests (see the counterexample), and a
failed transaction never triggers a wakeup. -/
theorem c7_wakeup_per_page (w : World) (itr : List String) (rid : String) :
    (pagServer w itr rid).wakeups =
      if (pagServer w itr rid).txnCommitted = true ∧ (pagServer w itr rid).prepended ≠ none
          ∧ sessionsOf (chunkOf w) ≠ [] then 1 else 0 := by
  by_cases h : rid ∈ itr
  · rw [pagServer_busy w itr rid h]; simp
  · rw [pagServer_free w itr rid h]
    exact pagServerBody_wakeups w

/-- C7 counterexample: a page whose only event is already in the timeline but
still queues session request 5 commits its (empty) transaction yet fires no
wakeup, refuting "exactly once if at least one event of the page was queued
for deferred decryption and the transaction committed successfully". -/
theorem c7_wakeup_counterexample :
    (pagServer ⟨.ok ⟨"tokA"⟩, .ok ⟨[⟨1, [5]⟩], "tokB"⟩, [1], false, true, true⟩
        [] "!r").txnCommitted = true ∧
    sessionsOf (chunkOf ⟨.ok ⟨"tokA"⟩, .ok ⟨[⟨1, [5]⟩], "tokB"⟩, [1], false, true, true⟩)
      = [5] ∧
    (pagServer ⟨.ok ⟨"tokA"⟩, .ok ⟨[⟨1, [5]⟩], "tokB"⟩, [1], false, true, true⟩
        [] "!r").wakeups = 0 := by
  refine ⟨rfl, rfl, rfl⟩

/-- C9 (amended): the exhaustion-discovering call (empty end token, which is
replaced by the terminal sentinel, or empty chunk) stores the substituted end
token through `SetPrevBatch` outside any transaction and returns
`has_more = true` with an events list of `len(chunk)` nil placeholders —
empty only when the chunk itself is empty; when the stored token is the
sentinel (the empty-end-token case) every later call that reads it returns an
empty result with `has_more = false` and no network call. -/
theorem c9_exhaustion_discovery (w : World) (itr : List String) (rid : String)
    (room : Room) (resp : MessagesResp)
    (h1 : rid ∉ itr) (h2 : w.roomResult = .ok room)
    (h3 : room.prevBatch ≠ PrevBatchPaginationComplete)
    (h4 : w.messagesResult = .ok resp)
    (h5 : resp.endToken = "" ∨ resp.endToken = PrevBatchPaginationComplete ∨ resp.chunk = [])
    (h6 : w.setPrevBatchOK = true) :
    (pagServer w itr rid).result
        = .ok ⟨List.replicate resp.chunk.length none, true⟩ ∧
    (pagServer w itr rid).prevBatchOutsideTxn
        = some (if resp.endToken = "" then PrevBatchPaginationComplete else resp.endToken) ∧
    (pagServer w itr rid).prevBatchInTxn = none ∧
    (pagServer w itr rid).txnCommitted = false ∧
    (∀ (w' : World) (itr' : List String) (room' : Room), rid ∉ itr' →
      w'.roomResult = .ok room' →
      room'.prevBatch
          = (if resp.endToken = "" then PrevBatchPaginationComplete else resp.endToken) →
      resp.endToken = "" →
      (pagServer w' itr' rid).result = .ok ⟨[], false⟩ ∧
      (pagServer w' itr' rid).messagesCalled = false) := by
  have hsent : PrevBatchPaginationComplete ≠ "" := by decide
  have hbody := pagServerBody_exhaust w room resp h2 h3 h4 h5 h6
  have hmore : ((if resp.endToken = "" then PrevBatchPaginationComplete
      else resp.endToken) != "") = true := by
    by_cases he : resp.endToken = ""
    · simp [he, hsent]
    · simp [he]
  rw [pagServer_free w itr rid h1]
  refine ⟨?_, ?_, ?_, ?_, ?_⟩
  · rw [show (⟨pagServerBody w, itr⟩ : PagOutcome).result = (pagServerBody w).result from rfl,
      hbody, hmore]
  · rw [show (⟨pagServerBody w, itr⟩ : PagOutcome).prevBatchOutsideTxn
      = (pagServerBody w).prevBatchOutsideTxn from rfl, hbody]
  · rw [show (⟨pagServerBody w, itr⟩ : PagOutcome).prevBatchInTxn
      = (pagServerBody w).prevBatchInTxn from rfl, hbody]
  · rw [show (⟨pagServerBody w, itr⟩ : PagOutcome).txnCommitted
      = (pagServerBody w).txnCommitted from rfl, hbody]
  · intro w' itr' room' h1' h2' h3' he
    rw [he, if_pos rfl] at h3'
    rw [pagServer_free w' itr' rid h1']
    constructor <;> simp [pagServerBody, h2', h3']

/-- C9 counterexample: a one-event chunk with an empty end token takes the
exhaustion branch and returns `has_more = true` with the one-element list
`[nil]` — not the empty events list the claim states. -/
theorem c9_exhaustion_counterexample :
    (pagServer ⟨.ok ⟨"tokA"⟩, .ok ⟨[⟨1, []⟩], ""⟩, [], false, true, true⟩ [] "!r").result
      = .ok ⟨[none], true⟩ ∧ ([(none : Option PEvent)] : List (Option PEvent)) ≠ [] := by
  constructor
  · rfl
  · decide

/-- C9 witness: the amended claim at a concrete empty-end-token page. -/
theorem c9_exhaustion_discovery_witness :
    (pagServer ⟨.ok ⟨"tokA"⟩, .ok ⟨[⟨1, []⟩, ⟨2, []⟩], ""⟩, [], false, true, true⟩
        [] "!r").result = .ok ⟨[none, none], true⟩ ∧
    (pagServer ⟨.ok ⟨"tokA"⟩, .ok ⟨[⟨1, []⟩, ⟨2, []⟩], ""⟩, [], false, true, true⟩
        [] "!r").prevBatchOutsideTxn = some PrevBatchPaginationComplete ∧
    (pagServer ⟨.ok ⟨PrevBatchPaginationComplete⟩, .error "unused", [], false, true, true⟩
        [] "!r").result = .ok ⟨[], false⟩ := by
  have h := c9_exhaustion_discovery
    ⟨.ok ⟨"tokA"⟩, .ok ⟨[⟨1, []⟩, ⟨2, []⟩], ""⟩, [], false, true, true⟩
    [] "!r" ⟨"tokA"⟩ ⟨[⟨1, []⟩, ⟨2, []⟩], ""⟩
    (by simp) rfl (by decide) rfl (Or.inl rfl) rfl
  refine ⟨h.1, ?_, ?_⟩
  · have := h.2.1
    simpa using this
  · exact (h.2.2.2.2 ⟨.ok ⟨PrevBatchPaginationComplete⟩, .error "unused", [], false, true, true⟩
      [] ⟨PrevBatchPaginationComplete⟩ (by simp) rfl (by simp) rfl).1

end Hicli

namespace WS

/-- Close status used when a connection's outbound event queue overflows
(`StatusEventsStuck` in websocket.go). -/
def StatusEventsStuck : Nat := 4001

/-- Size of the buffered outbound event channel (`make(chan ..., 32)`). -/
def queueCapacity : Nat := 32

/-- Observable state of one websocket connection in `HandleWebsocket`:
the buffered outbound queue, the derived context's cancellation flag, the
status codes passed to `conn.Close` in order, the `sync.Once` guard of
`forceClose`, and the effects of the cleanup body (context cancel,
unsubscribe, transport close, queue close) plus how many times that body
actually ran. -/
structure ConnState where
  queue : List Nat
  ctxCancelled : Bool
  closeCalls : List Nat
  onceDone : Bool
  cleanupRuns : Nat
  unsubscribed : Bool
  transportClosed : Bool
  queueClosed : Bool
deriving DecidableEq

/-- The `forceClose` closure: cancel the context, unsubscribe, close the
transport (`conn.CloseNow`), close the event queue. -/
def forceClose (s : ConnState) : ConnState :=
  { s with
    ctxCancelled := true
    unsubscribed := true
    transportClosed := true
    queueClosed := true
    cleanupRuns := s.cleanupRuns + 1 }

/-- `closeOnce.Do(forceClose)`: the cleanup body runs only if it has not run
before. -/
def closeOnceDo (s : ConnState) : ConnState :=
  if s.onceDone then s else forceClose { s with onceDone := true }

/-- The event callback registered with `SubscribeEvents`: drop the event if
the context is already cancelled; enqueue when the 32-slot channel has room;
otherwise cancel, close the connection with `StatusEventsStuck` and run the
once-guarded cleanup. -/
def onEvent (s : ConnState) (evt : Nat) : ConnState :=
  if s.ctxCancelled then s
  else if s.queue.length < queueCapacity then { s with queue := s.queue ++ [evt] }
  else
    closeOnceDo
      { s with
        ctxCancelled := true
        closeCalls := s.closeCalls ++ [StatusEventsStuck] }

/-- Any further code path that triggers `closeOnce.Do(forceClose)` (read loop
exit, event loop exit, command handler panic, ...), iterated `n` times. -/
def runCloseTriggers (s : ConnState) : Nat → ConnState
  | 0 => s
  | n + 1 => runCloseTriggers (closeOnceDo s) n

theorem closeOnceDo_done (s : ConnState) (h : s.onceDone = true) : closeOnceDo s = s := by
  simp [closeOnceDo, h]

theorem closeOnceDo_onceDone (s : ConnState) : (closeOnceDo s).onceDone = true := by
  by_cases h : s.onceDone <;> simp [closeOnceDo, forceClose, h]

theorem runCloseTriggers_done (s : ConnState) (h : s.onceDone = true) :
    ∀ n, runCloseTriggers s n = s := by
  intro n
  induction n with
  | zero => rfl
  | succ n ih => simp [runCloseTriggers, closeOnceDo_done s h, ih]

/-- C6: when an event arrives while the 32-slot outbound queue of a live
connection is full, the connection is closed with the distinct events-stuck
status code 4001 and the once-guarded cleanup (cancel, unsubscribe, close
transport, close queue) runs exactly once, no matter how many further paths
trigger it afterwards; when the queue has room the event is enqueued, never
silently dropped on a live connection. -/
theorem c6_backpressure (s : ConnState) (evt : Nat) (n : Nat)
    (hq : queueCapacity ≤ s.queue.length) (hc : s.ctxCancelled = false)
    (ho : s.onceDone = false) (hr : s.cleanupRuns = 0) :
    StatusEventsStuck ∈ (onEvent s evt).closeCalls ∧
    (onEvent s evt).cleanupRuns = 1 ∧
    (onEvent s evt).ctxCancelled = true ∧
    (onEvent s evt).unsubscribed = true ∧
    (onEvent s evt).transportClosed = true ∧
    (onEvent s evt).queueClosed = true ∧
    (runCloseTriggers (onEvent s evt) n).cleanupRuns = 1 ∧
    (∀ t : ConnState, t.ctxCancelled = false → t.queue.length < queueCapacity →
      onEvent t evt = { t with queue := t.queue ++ [evt] }) := by
  have hfull : ¬ s.queue.length < queueCapacity := by omega
  have hstep : onEvent s evt
      = forceClose
          { s with
            ctxCancelled := true
            closeCalls := s.closeCalls ++ [StatusEventsStuck]
            onceDone := true } := by
    simp [onEvent, hc, hfull, closeOnceDo, ho]
  refine ⟨?_, ?_, ?_, ?_, ?_, ?_, ?_, ?_⟩
  · rw [hstep]; simp [forceClose]
  · rw [hstep]; simp [forceClose, hr]
  · rw [hstep]; simp [forceClose]
  · rw [hstep]; simp [forceClose]
  · rw [hstep]; simp [forceClose]
  · rw [hstep]; simp [forceClose]
  · have hdone : (onEvent s evt).onceDone = true := by
      rw [hstep]; simp [forceClose]
    rw [runCloseTriggers_done _ hdone n, hstep]
    simp [forceClose, hr]
  · intro t htc htq
    simp [onEvent, htc, htq]

/-- C6 witness: a full queue at a concrete live connection. -/
theorem c6_backpressure_witness :
    StatusEventsStuck ∈
      (onEvent ⟨List.replicate 32 0, false, [], false, 0, false, false, false⟩ 7).closeCalls ∧
    (runCloseTriggers
      (onEvent ⟨List.replicate 32 0, false, [], false, 0, false, false, false⟩ 7) 5).cleanupRuns
      = 1 := by
  have h := c6_backpressure ⟨List.replicate 32 0, false, [], false, 0, false, false, false⟩
    7 5 (by decide) rfl rfl rfl
  exact ⟨h.1, h.2.2.2.2.2.2.1⟩

end WS

namespace InitSend

/-- A stored room as `sendInitialData` sees it: identity and sorting
timestamp. -/
structure IRoom where
  rid : Nat
  sortTS : Int
deriving DecidableEq

def BatchSize : Nat := 100

/-- `DB.Room.GetBySortTS(maxTS, limit)`: the stored rooms with sorting
timestamp strictly below the cursor, in descending timestamp order, limited.
The database list `db` is taken already sorted descending, so the filter
preserves the order the query returns. -/
def getBySortTS (db : List IRoom) (maxTS : Int) (limit : Nat) : List IRoom :=
  (db.filter (fun r => decide (r.sortTS < maxTS))).take limit

/-- The inner `for _, room := range rooms` loop of `sendInitialData`: rooms
are added to the payload until one shares the batch's last room's sorting
timestamp (that `break` defers the tie group — including, always, the last
room itself). -/
def sentOfBatch (batch : List IRoom) : List IRoom :=
  match batch.getLast? with
  | none => []
  | some lastRoom => batch.takeWhile (fun r => decide (r.sortTS ≠ lastRoom.sortTS))

/-- The outer batch loop of `sendInitialData`, with fuel standing in for the
unbounded `for` loop: returns the concatenation of all rooms sent before the
`len(rooms) < BatchSize` exit, or `none` when the fuel runs out (the loop
did not terminate within `fuel` iterations). -/
def sendLoop (db : List IRoom) : Nat → Int → List IRoom → Option (List IRoom)
  | 0, _, _ => none
  | fuel + 1, maxTS, acc =>
    let batch := getBySortTS db maxTS BatchSize
    let sent := sentOfBatch batch
    let maxTS' := match sent.getLast? with
      | some r => r.sortTS
      | none => maxTS
    if batch.length < BatchSize then some (acc ++ sent)
    else sendLoop db fuel maxTS' (acc ++ sent)

/-- `sendInitialData`: stream batches starting from `now + 1h`. -/
def sendInitialData (db : List IRoom) (startTS : Int) (fuel : Nat) : Option (List IRoom) :=
  sendLoop db fuel startTS []

/-- C8: the batch loop does not send every room.  With a single stored room
the inner loop immediately breaks (the room trivially shares the last-fetched
sorting timestamp with itself), the batch is partial so the outer loop exits,
and the loop terminates having sent nothing; moreover a full batch in which
every room shares one sorting timestamp never advances the cursor, so the
loop never terminates (it exhausts any amount of fuel). -/
theorem c8_initial_rooms_dropped :
    (sendInitialData [⟨1, 5⟩] 1000 10 = some [] ∧ ([⟨1, 5⟩] : List IRoom) ≠ []) ∧
    (∀ fuel, sendInitialData (List.replicate 100 ⟨1, 5⟩) 1000 fuel = none) := by
  constructor
  · exact ⟨rfl, by decide⟩
  · have hbatch : getBySortTS (List.replicate 100 ⟨1, 5⟩) 1000 BatchSize
        = List.replicate 100 ⟨1, 5⟩ := by decide
    have hsent : sentOfBatch (List.replicate 100 ⟨1, 5⟩) = [] := by decide
    have hgo : ∀ fuel acc,
        sendLoop (List.replicate 100 ⟨1, 5⟩) fuel 1000 acc = none := by
      intro fuel
      induction fuel with
      | zero => intro acc; rfl
      | succ n ih =>
        intro acc
        simp only [sendLoop, hbatch, hsent]
        rw [if_neg (by decide)]
        rw [List.append_nil]
        exact ih acc
    intro fuel
    exact hgo fuel []

end InitSend

namespace RoomList

/-- Modelled from the spec: the derived `RoomListEntry` projection kept by
the room-list maintainer (the TypeScript StateStore source is not part of the
sampled tree) — room identity, sorting timestamp, the three unread counters
and the preview-event row identifier. -/
structure RLEntry where
  roomID : Nat
  sortingTimestamp : Int
  unreadMessages : Nat
  unreadNotifications : Nat
  unreadHighlights : Nat
  previewRowID : Int
deriving DecidableEq

/-- Modelled from the spec: `StateStore.#roomListEntryChanged` compares the
sorting timestamp, the three unread counters and the preview-event row id. -/
def roomListEntryChanged (a b : RLEntry) : Bool :=
  a.sortingTimestamp != b.sortingTimestamp ||
  a.unreadMessages != b.unreadMessages ||
  a.unreadNotifications != b.unreadNotifications ||
  a.unreadHighlights != b.unreadHighlights ||
  a.previewRowID != b.previewRowID

/-- Ascending order on entries by sorting timestamp. -/
def tsLE (a b : RLEntry) : Prop := a.sortingTimestamp ≤ b.sortingTimestamp

/-- Modelled from the spec: the incremental ordered insert — append when the
new entry's timestamp is greater than or equal to the tail's, prepend when it
is smaller than the head's, and otherwise place it immediately after the last
element (scanning from the tail) whose timestamp is less than or equal to its
own, so equal timestamps keep encounter order. -/
def insertByTS (l : List RLEntry) (x : RLEntry) : List RLEntry :=
  match l with
  | [] => [x]
  | h :: t =>
    if ((h :: t).getLast (List.cons_ne_nil h t)).sortingTimestamp ≤ x.sortingTimestamp then
      (h :: t) ++ [x]
    else if x.sortingTimestamp < h.sortingTimestamp then
      x :: h :: t
    else
      ((h :: t).reverse.dropWhile
          (fun e => decide (x.sortingTimestamp < e.sortingTimestamp))).reverse
        ++ x :: ((h :: t).reverse.takeWhile
          (fun e => decide (x.sortingTimestamp < e.sortingTimestamp))).reverse

/-- Modelled from the spec: applying one touched room of a sync delta — when
the room already has an entry and the comparison reports no change, the list
is untouched and no change is recorded; otherwise the old entry is removed
and the new entry inserted in timestamp order, recording a change. -/
def applyRoom (st : List RLEntry) (d : RLEntry) : List RLEntry × Bool :=
  match st.find? (fun e => e.roomID == d.roomID) with
  | some old =>
    if roomListEntryChanged old d then
      (insertByTS (st.filter (fun e => !(e.roomID == d.roomID))) d, true)
    else (st, false)
  | none => (insertByTS st d, true)

/-- One fold step over the delta: update the list and accumulate whether any
touched room changed so far. -/
def syncStep (acc : List RLEntry × Bool) (d : RLEntry) : List RLEntry × Bool :=
  ((applyRoom acc.1 d).1, acc.2 || (applyRoom acc.1 d).2)

/-- Modelled from the spec: `StateStore.applySync` over one sync delta — fold
the touched rooms through `applyRoom` and emit a change notification exactly
when this is the first population (the current list is empty) or at least
one touched room changed. -/
def applySync (st : List RLEntry) (delta : List RLEntry) : List RLEntry × Bool :=
  let res := delta.foldl syncStep (st, false)
  (res.1, st.isEmpty || res.2)

/-- The room list derived from a whole sequence of sync deltas, starting from
the uninitialized (empty) state. -/
def applyAll (deltas : List (List RLEntry)) : List RLEntry :=
  deltas.foldl (fun st d => (applySync st d).1) []

/-- All room IDs touched by a sequence of sync deltas. -/
def touched : List (List RLEntry) → List Nat
  | [] => []
  | d :: rest => d.map (·.roomID) ++ touched rest

/-- Whether a delta entry counts as changed against a given list: a room with
no current entry is always a change, otherwise the entry comparison decides. -/
def changedWrt (st : List RLEntry) (d : RLEntry) : Bool :=
  match st.find? (fun e => e.roomID == d.roomID) with
  | some old => roomListEntryChanged old d
  | none => true

theorem mem_le_getLast? : ∀ {l : List RLEntry}, List.Pairwise tsLE l →
    ∀ {a : RLEntry}, a ∈ l → ∀ {g : RLEntry}, l.getLast? = some g → tsLE a g := by
  intro l
  induction l with
  | nil => intro _ a ha; cases ha
  | cons x t ih =>
    intro hp a ha g hg
    match t, hg with
    | [], hg =>
      simp only [List.getLast?_singleton, Option.some.injEq] at hg
      simp only [List.mem_singleton] at ha
      subst ha; subst hg
      exact le_refl _
    | y :: t', hg =>
      rw [List.getLast?_cons_cons] at hg
      have hgl : g ∈ y :: t' := List.mem_of_getLast?_eq_some hg
      rcases List.mem_cons.mp ha with rfl | hat
      · exact (List.pairwise_cons.mp hp).1 g hgl
      · exact ih (List.pairwise_cons.mp hp).2 hat hg

theorem head_le_mem {h : RLEntry} {t : List RLEntry} (hp : List.Pairwise tsLE (h :: t))
    {a : RLEntry} (ha : a ∈ h :: t) : tsLE h a := by
  rcases List.mem_cons.mp ha with rfl | hat
  · exact le_refl _
  · exact (List.pairwise_cons.mp hp).1 a hat

theorem insertByTS_perm (l : List RLEntry) (x : RLEntry) :
    (insertByTS l x).Perm (x :: l) := by
  match l with
  | [] => exact List.Perm.refl _
  | h :: t =>
    rw [insertByTS]
    split
    · exact List.perm_append_singleton x (h :: t)
    · split
      · exact List.Perm.refl _
      · refine (List.perm_middle).trans (List.Perm.cons x ?_)
        have : ((h :: t).reverse.dropWhile
              (fun e => decide (x.sortingTimestamp < e.sortingTimestamp))).reverse
            ++ ((h :: t).reverse.takeWhile
              (fun e => decide (x.sortingTimestamp < e.sortingTimestamp))).reverse
            = h :: t := by
          rw [← List.reverse_append, List.takeWhile_append_dropWhile, List.reverse_reverse]
        rw [this]

theorem insertByTS_sorted {l : List RLEntry} (hl : List.Pairwise tsLE l) (x : RLEntry) :
    List.Pairwise tsLE (insertByTS l x) := by
  match l with
  | [] => exact List.pairwise_singleton _ _
  | h :: t =>
    rw [insertByTS]
    split
    · rename_i htail
      rw [List.pairwise_append]
      refine ⟨hl, List.pairwise_singleton _ _, ?_⟩
      intro a ha b hb
      rw [List.mem_singleton] at hb
      subst hb
      have hlast : (h :: t).getLast? = some ((h :: t).getLast (List.cons_ne_nil h t)) :=
        List.getLast?_eq_getLast _ _
      exact le_trans (mem_le_getLast? hl ha hlast) htail
    · split
      · rename_i hhead
        rw [List.pairwise_cons]
        exact ⟨fun b hb => le_of_lt (lt_of_lt_of_le hhead (head_le_mem hl hb)), hl⟩
      · rename_i htail hhead
        set p : RLEntry → Bool := fun e => decide (x.sortingTimestamp < e.sortingTimestamp)
          with hp
        set A : List RLEntry := ((h :: t).reverse.takeWhile p).reverse with hA
        set B : List RLEntry := ((h :: t).reverse.dropWhile p).reverse with hB
        have hBA : B ++ A = h :: t := by
          rw [hA, hB, ← List.reverse_append, List.takeWhile_append_dropWhile,
            List.reverse_reverse]
        have hsplit : List.Pairwise tsLE (B ++ A) := by rw [hBA]; exact hl
        rw [List.pairwise_append] at hsplit
        obtain ⟨hpB, hpA, hcross⟩ := hsplit
        have hAgt : ∀ a ∈ A, x.sortingTimestamp < a.sortingTimestamp := by
          intro a ha
          rw [hA, List.mem_reverse] at ha
          have := List.mem_takeWhile_imp ha
          rw [hp] at this
          exact of_decide_eq_true this
        have hBle : ∀ b ∈ B, tsLE b x := by
          intro b hb
          rcases hbl : B.getLast? with _ | g
          · rw [hB] at hbl
            rw [List.getLast?_reverse] at hbl
            have : (h :: t).reverse.dropWhile p = [] := by
              cases hdw : (h :: t).reverse.dropWhile p with
              | nil => rfl
              | cons z zs => rw [hdw] at hbl; simp at hbl
            rw [hB, this] at hb
            simp at hb
          · have hble := mem_le_getLast? hpB hb hbl
            have hgx : tsLE g x := by
              rw [hB, List.getLast?_reverse] at hbl
              have hhd := List.head?_dropWhile_not p (h :: t).reverse
              rw [hbl] at hhd
              simp only at hhd
              rw [hp] at hhd
              have := of_decide_eq_false hhd
              exact le_of_not_lt this
            exact le_trans hble hgx
        rw [List.pairwise_append]
        refine ⟨hpB, ?_, ?_⟩
        · rw [List.pairwise_cons]
          exact ⟨fun b hb => le_of_lt (hAgt b hb), hpA⟩
        · intro b hb c hc
          rcases List.mem_cons.mp hc with rfl | hcA
          · exact hBle b hb
          · exact hcross b hb c hcA

theorem find?_none_key {st : List RLEntry} {d : RLEntry}
    (hf : st.find? (fun e => e.roomID == d.roomID) = none) :
    d.roomID ∉ st.map (·.roomID) := by
  rw [List.find?_eq_none] at hf
  intro hmem
  rw [List.mem_map] at hmem
  obtain ⟨e, he, hrid⟩ := hmem
  exact hf e he (by simp [hrid])

theorem filter_key_not (st : List RLEntry) (d : RLEntry) :
    d.roomID ∉ (st.filter (fun e => !(e.roomID == d.roomID))).map (·.roomID) := by
  intro hmem
  rw [List.mem_map] at hmem
  obtain ⟨e, he, hrid⟩ := hmem
  have hne := List.of_mem_filter he
  simp only [Bool.not_eq_true', beq_eq_false_iff_ne, ne_eq] at hne
  exact hne hrid

theorem insert_nodup_keys {st : List RLEntry} (hk : (st.map (·.roomID)).Nodup)
    {d : RLEntry} (hnot : d.roomID ∉ st.map (·.roomID)) :
    ((insertByTS st d).map (·.roomID)).Nodup := by
  have hperm := (insertByTS_perm st d).map (·.roomID)
  rw [hperm.nodup_iff]
  simp only [List.map_cons, List.nodup_cons]
  exact ⟨hnot, hk⟩

theorem applyRoom_inv {st : List RLEntry}
    (h1 : List.Pairwise tsLE st) (h2 : (st.map (·.roomID)).Nodup) (d : RLEntry) :
    (List.Pairwise tsLE (applyRoom st d).1 ∧ (((applyRoom st d).1).map (·.roomID)).Nodup) ∧
    (∀ r, r ∈ ((applyRoom st d).1).map (·.roomID) ↔ r = d.roomID ∨ r ∈ st.map (·.roomID)) := by
  cases hf : st.find? (fun e => e.roomID == d.roomID) with
  | none =>
    simp only [applyRoom, hf]
    refine ⟨⟨insertByTS_sorted h1 d, insert_nodup_keys h2 (find?_none_key hf)⟩, ?_⟩
    intro r
    have hperm := (insertByTS_perm st d).map (·.roomID)
    rw [hperm.mem_iff]
    simp
  | some old =>
    by_cases hc : roomListEntryChanged old d
    · simp only [applyRoom, hf, hc, if_true]
      have hfs : List.Pairwise tsLE (st.filter (fun e => !(e.roomID == d.roomID))) :=
        h1.filter _
      have hfk : ((st.filter (fun e => !(e.roomID == d.roomID))).map (·.roomID)).Nodup :=
        h2.sublist ((List.filter_sublist st).map _)
      refine ⟨⟨insertByTS_sorted hfs d, insert_nodup_keys hfk (filter_key_not st d)⟩, ?_⟩
      intro r
      have hperm := (insertByTS_perm (st.filter (fun e => !(e.roomID == d.roomID))) d).map
        (·.roomID)
      rw [hperm.mem_iff]
      simp only [List.map_cons, List.mem_cons]
      constructor
      · rintro (rfl | hmem)
        · exact Or.inl rfl
        · right
          rw [List.mem_map] at hmem ⊢
          obtain ⟨e, he, hrid⟩ := hmem
          exact ⟨e, List.mem_of_mem_filter he, hrid⟩
      · rintro (rfl | hmem)
        · exact Or.inl rfl
        · by_cases hr : r = d.roomID
          · exact Or.inl hr
          · right
            rw [List.mem_map] at hmem ⊢
            obtain ⟨e, he, hrid⟩ := hmem
            refine ⟨e, List.mem_filter.mpr ⟨he, ?_⟩, hrid⟩
            simp only [Bool.not_eq_true', beq_eq_false_iff_ne, ne_eq]
            intro hbad
            exact hr (hrid ▸ hbad ▸ rfl)
    · have hcf : roomListEntryChanged old d = false := by simpa using hc
      simp only [applyRoom, hf, hcf, Bool.false_eq_true, if_false]
      refine ⟨⟨h1, h2⟩, ?_⟩
      have hdr : d.roomID ∈ st.map (·.roomID) := by
        have hpred := List.find?_some hf
        have hmem := List.mem_of_find?_eq_some hf
        rw [List.mem_map]
        exact ⟨old, hmem, by simpa using hpred⟩
      intro r
      constructor
      · exact fun h => Or.inr h
      · rintro (rfl | h)
        · exact hdr
        · exact h

theorem applyDelta_inv (delta : List RLEntry) :
    ∀ st, List.Pairwise tsLE st → (st.map (·.roomID)).Nodup →
      (List.Pairwise tsLE (delta.foldl (fun s d => (applyRoom s d).1) st) ∧
       ((delta.foldl (fun s d => (applyRoom s d).1) st).map (·.roomID)).Nodup) ∧
      (∀ r, r ∈ (delta.foldl (fun s d => (applyRoom s d).1) st).map (·.roomID) ↔
        r ∈ st.map (·.roomID) ∨ r ∈ delta.map (·.roomID)) := by
  induction delta with
  | nil =>
    intro st h1 h2
    exact ⟨⟨h1, h2⟩, fun r => by simp⟩
  | cons d ds ih =>
    intro st h1 h2
    have hstep := applyRoom_inv h1 h2 d
    have hrec := ih (applyRoom st d).1 hstep.1.1 hstep.1.2
    simp only [List.foldl_cons]
    refine ⟨hrec.1, ?_⟩
    intro r
    rw [hrec.2 r, hstep.2 r]
    simp only [List.map_cons, List.mem_cons]
    tauto

theorem applySync_fst (st : List RLEntry) (delta : List RLEntry) :
    (applySync st delta).1 = delta.foldl (fun s d => (applyRoom s d).1) st := by
  suffices h : ∀ (st : List RLEntry) (b : Bool),
      (delta.foldl syncStep (st, b)).1 = delta.foldl (fun s d => (applyRoom s d).1) st by
    exact h st false
  induction delta with
  | nil => intro st b; rfl
  | cons d ds ih =>
    intro st b
    simp only [List.foldl_cons, syncStep]
    exact ih _ _

/-- C4: for every sequence of sync deltas (timestamps are arbitrary
integers), the derived room list stays sorted ascending by sorting timestamp
(non-strictly, so entries with equal timestamps keep their encounter order —
`insertByTS` places a new entry after every existing equal-or-smaller one),
its room IDs are pairwise distinct, and its key set is exactly the set of
rooms ever touched by the deltas: exactly one entry per known room. -/
theorem c4_room_list_sorted_unique (deltas : List (List RLEntry)) :
    List.Pairwise tsLE (applyAll deltas) ∧
    ((applyAll deltas).map (·.roomID)).Nodup ∧
    (∀ r, r ∈ (applyAll deltas).map (·.roomID) ↔ r ∈ touched deltas) := by
  suffices h : ∀ (ds : List (List RLEntry)) (st : List RLEntry),
      List.Pairwise tsLE st → (st.map (·.roomID)).Nodup →
      List.Pairwise tsLE (ds.foldl (fun s d => (applySync s d).1) st) ∧
      ((ds.foldl (fun s d => (applySync s d).1) st).map (·.roomID)).Nodup ∧
      (∀ r, r ∈ (ds.foldl (fun s d => (applySync s d).1) st).map (·.roomID) ↔
        r ∈ st.map (·.roomID) ∨ r ∈ touched ds) by
    have hmain := h deltas [] List.Pairwise.nil (by simp)
    refine ⟨hmain.1, hmain.2.1, fun r => ?_⟩
    show r ∈ (deltas.foldl (fun st d => (applySync st d).1) []).map (·.roomID)
      ↔ r ∈ touched deltas
    rw [hmain.2.2 r]
    simp
  intro ds
  induction ds with
  | nil =>
    intro st h1 h2
    exact ⟨h1, h2, fun r => by simp [touched]⟩
  | cons d rest ih =>
    intro st h1 h2
    have hfst := applySync_fst st d
    have hda := applyDelta_inv d st h1 h2
    rw [← hfst] at hda
    have hrec := ih (applySync st d).1 hda.1.1 hda.1.2
    simp only [List.foldl_cons]
    refine ⟨hrec.1, hrec.2.1, ?_⟩
    intro r
    rw [hrec.2.2 r, hda.2 r]
    simp only [touched, List.mem_append]
    tauto

theorem applyRoom_unchanged {st : List RLEntry} {d : RLEntry}
    (h : changedWrt st d = false) : applyRoom st d = (st, false) := by
  cases hf : st.find? (fun e => e.roomID == d.roomID) with
  | none => simp only [changedWrt, hf] at h; cases h
  | some old =>
    simp only [changedWrt, hf] at h
    simp [applyRoom, hf, h]

theorem applyRoom_snd_changed {st : List RLEntry} {d : RLEntry}
    (h : changedWrt st d = true) : (applyRoom st d).2 = true := by
  cases hf : st.find? (fun e => e.roomID == d.roomID) with
  | none => simp [applyRoom, hf]
  | some old =>
    simp only [changedWrt, hf] at h
    simp [applyRoom, hf, h]

theorem syncFold_stays_true (ds : List RLEntry) :
    ∀ (p : List RLEntry × Bool), p.2 = true → (ds.foldl syncStep p).2 = true := by
  induction ds with
  | nil => intro p hp; exact hp
  | cons d rest ih =>
    intro p hp
    simp only [List.foldl_cons]
    exact ih _ (by simp [syncStep, hp])

theorem syncFold_flag (delta : List RLEntry) :
    ∀ st, (delta.foldl syncStep (st, false)).2 = true ↔
      ∃ d ∈ delta, changedWrt st d = true := by
  induction delta with
  | nil => intro st; simp
  | cons d ds ih =>
    intro st
    by_cases hc : changedWrt st d = true
    · simp only [List.foldl_cons]
      rw [show syncStep (st, false) d = ((applyRoom st d).1, true) from by
        simp [syncStep, applyRoom_snd_changed hc]]
      constructor
      · intro _
        exact ⟨d, List.mem_cons_self d ds, hc⟩
      · intro _
        exact syncFold_stays_true ds _ rfl
    · have hc' : changedWrt st d = false := by simpa using hc
      simp only [List.foldl_cons]
      rw [show syncStep (st, false) d = (st, false) from by
        simp [syncStep, applyRoom_unchanged hc']]
      rw [ih st]
      constructor
      · rintro ⟨d', hd', hcd'⟩
        exact ⟨d', List.mem_cons_of_mem _ hd', hcd'⟩
      · rintro ⟨d', hd', hcd'⟩
        rcases List.mem_cons.mp hd' with rfl | hmem
        · rw [hc'] at hcd'; cases hcd'
        · exact ⟨d', hmem, hcd'⟩

/-- C5: `applySync` emits a room-list change notification exactly when this
is the first population (the current derived list is empty) or at least one
touched room's entry changed under the comparison of sorting timestamp, the
three unread counters and the preview-event row identifier (a room with no
existing entry counts as changed); in particular a delta in which every
touched room compares unchanged emits no notification. -/
theorem c5_notification_iff (st : List RLEntry) (delta : List RLEntry) :
    (applySync st delta).2 = true ↔ st = [] ∨ ∃ d ∈ delta, changedWrt st d = true := by
  show (st.isEmpty || (delta.foldl syncStep (st, false)).2) = true ↔ _
  rw [Bool.or_eq_true, List.isEmpty_iff, syncFold_flag delta st]

end RoomList

namespace Auth

/-- Byte value of the base64url alphabet character for a six-bit value
(`A-Z`, `a-z`, `0-9`, `-`, `_`; Go's `base64.RawURLEncoding`, unpadded). -/
def b64CharOf (s : Nat) : Nat :=
  if s < 26 then 65 + s
  else if s < 52 then 97 + (s - 26)
  else if s < 62 then 48 + (s - 52)
  else if s = 62 then 45
  else 95

/-- Six-bit value of a base64url alphabet byte, `none` for bytes outside the
alphabet (the decoder rejects them). -/
def b64ValOf (c : Nat) : Option Nat :=
  if 65 ≤ c ∧ c ≤ 90 then some (c - 65)
  else if 97 ≤ c ∧ c ≤ 122 then some (26 + (c - 97))
  else if 48 ≤ c ∧ c ≤ 57 then some (52 + (c - 48))
  else if c = 45 then some 62
  else if c = 95 then some 63
  else none

/-- Byte groups to six-bit groups: three bytes yield four sextets, a two-byte
remainder yields three, a one-byte remainder two (no padding). -/
def b64EncodeGroups : List Nat → List Nat
  | a :: b :: c :: rest =>
    (a / 4) :: ((a % 4) * 16 + b / 16) :: ((b % 16) * 4 + c / 64) :: (c % 64)
      :: b64EncodeGroups rest
  | [a, b] => [a / 4, (a % 4) * 16 + b / 16, (b % 16) * 4]
  | [a] => [a / 4, (a % 4) * 16]
  | [] => []

/-- `base64.RawURLEncoding.EncodeToString` over a byte list. -/
def b64Encode (l : List Nat) : List Nat := (b64EncodeGroups l).map b64CharOf

/-- Map every byte of the input to its six-bit value, failing on any byte
outside the alphabet. -/
def b64Vals : List Nat → Option (List Nat)
  | [] => some []
  | c :: rest =>
    match b64ValOf c, b64Vals rest with
    | some v, some vs => some (v :: vs)
    | _, _ => none

/-- Six-bit groups back to bytes: four sextets yield three bytes, a
three-sextet remainder two, a two-sextet remainder one, and a single
leftover sextet is a decoding error. -/
def b64DecodeGroups : List Nat → Option (List Nat)
  | s1 :: s2 :: s3 :: s4 :: rest =>
    match b64DecodeGroups rest with
    | some bs => some ((s1 * 4 + s2 / 16) :: ((s2 % 16) * 16 + s3 / 4)
        :: ((s3 % 4) * 64 + s4) :: bs)
    | none => none
  | [s1, s2] => some [s1 * 4 + s2 / 16]
  | [s1, s2, s3] => some [s1 * 4 + s2 / 16, (s2 % 16) * 16 + s3 / 4]
  | [_] => none
  | [] => some []

/-- `base64.RawURLEncoding.DecodeString` over a byte list. -/
def b64Decode (l : List Nat) : Option (List Nat) :=
  match b64Vals l with
  | some vs => b64DecodeGroups vs
  | none => none

theorem b64ValOf_b64CharOf : ∀ s, s < 64 → b64ValOf (b64CharOf s) = some s := by
  decide

theorem b64CharOf_ne_dot : ∀ s, b64CharOf s ≠ 46 := by
  intro s
  unfold b64CharOf
  split
  · omega
  · split
    · omega
    · split
      · omega
      · split <;> omega

theorem b64EncodeGroups_lt (l : List Nat) (hl : ∀ b ∈ l, b < 256) :
    ∀ s ∈ b64EncodeGroups l, s < 64 := by
  induction l using b64EncodeGroups.induct with
  | case1 a b c rest ih =>
    have ha : a < 256 := hl a (by simp)
    have hb : b < 256 := hl b (by simp)
    have hc : c < 256 := hl c (by simp)
    intro s hs
    rw [b64EncodeGroups] at hs
    simp only [List.mem_cons] at hs
    rcases hs with hs | hs | hs | hs | hs
    · omega
    · omega
    · omega
    · omega
    · exact ih (fun x hx => hl x (by simp [hx])) s (by simpa using hs)
  | case2 a b =>
    have ha : a < 256 := hl a (by simp)
    have hb : b < 256 := hl b (by simp)
    intro s hs
    rw [b64EncodeGroups] at hs
    simp only [List.mem_cons, List.not_mem_nil, or_false] at hs
    rcases hs with hs | hs | hs
    · omega
    · omega
    · omega
  | case3 a =>
    have ha : a < 256 := hl a (by simp)
    intro s hs
    rw [b64EncodeGroups] at hs
    simp only [List.mem_cons, List.not_mem_nil, or_false] at hs
    rcases hs with hs | hs
    · omega
    · omega
  | case4 => intro s hs; cases hs

theorem b64Vals_map (ss : List Nat) (h : ∀ s ∈ ss, s < 64) :
    b64Vals (ss.map b64CharOf) = some ss := by
  induction ss with
  | nil => rfl
  | cons s rest ih =>
    rw [List.map_cons, b64Vals, b64ValOf_b64CharOf s (h s (by simp)),
      ih (fun x hx => h x (by simp [hx]))]

theorem b64DecodeGroups_encode (l : List Nat) (hl : ∀ b ∈ l, b < 256) :
    b64DecodeGroups (b64EncodeGroups l) = some l := by
  induction l using b64EncodeGroups.induct with
  | case1 a b c rest ih =>
    have ha : a < 256 := hl a (by simp)
    have hb : b < 256 := hl b (by simp)
    have hc : c < 256 := hl c (by simp)
    rw [b64EncodeGroups, b64DecodeGroups, ih (fun x hx => hl x (by simp [hx]))]
    have e1 : a / 4 * 4 + (a % 4 * 16 + b / 16) / 16 = a := by omega
    have e2 : (a % 4 * 16 + b / 16) % 16 * 16 + (b % 16 * 4 + c / 64) / 4 = b := by omega
    have e3 : (b % 16 * 4 + c / 64) % 4 * 64 + c % 64 = c := by omega
    rw [e1, e2, e3]
  | case2 a b =>
    have ha : a < 256 := hl a (by simp)
    have hb : b < 256 := hl b (by simp)
    rw [b64EncodeGroups, b64DecodeGroups]
    have e1 : a / 4 * 4 + (a % 4 * 16 + b / 16) / 16 = a := by omega
    have e2 : (a % 4 * 16 + b / 16) % 16 * 16 + (b % 16 * 4) / 4 = b := by omega
    rw [e1, e2]
  | case3 a =>
    have ha : a < 256 := hl a (by simp)
    rw [b64EncodeGroups, b64DecodeGroups]
    have e1 : a / 4 * 4 + a % 4 * 16 / 16 = a := by omega
    rw [e1]
  | case4 => rfl

theorem b64Decode_b64Encode (l : List Nat) (hl : ∀ b ∈ l, b < 256) :
    b64Decode (b64Encode l) = some l := by
  simp only [b64Decode, b64Encode, b64Vals_map _ (b64EncodeGroups_lt l hl)]
  exact b64DecodeGroups_encode l hl

theorem b64Encode_ne_dot (l : List Nat) : ∀ c ∈ b64Encode l, c ≠ 46 := by
  intro c hc
  rw [b64Encode, List.mem_map] at hc
  obtain ⟨s, _, rfl⟩ := hc
  exact b64CharOf_ne_dot s

/-- `strings.Split(token, ".")` over a byte string (46 is `.`). -/
def splitOnDot : List Nat → List (List Nat)
  | [] => [[]]
  | c :: rest =>
    if c = 46 then [] :: splitOnDot rest
    else
      match splitOnDot rest with
      | [] => [[c]]
      | p :: ps => (c :: p) :: ps

theorem splitOnDot_no_dot (p : List Nat) (hp : ∀ c ∈ p, c ≠ 46) :
    splitOnDot p = [p] := by
  induction p with
  | nil => rfl
  | cons c rest ih =>
    rw [splitOnDot, if_neg (hp c (by simp)), ih (fun x hx => hp x (by simp [hx]))]

theorem splitOnDot_two (p1 p2 : List Nat) (h1 : ∀ c ∈ p1, c ≠ 46)
    (h2 : ∀ c ∈ p2, c ≠ 46) : splitOnDot (p1 ++ 46 :: p2) = [p1, p2] := by
  induction p1 with
  | nil =>
    rw [List.nil_append, splitOnDot, if_pos rfl, splitOnDot_no_dot p2 h2]
  | cons c rest ih =>
    rw [List.cons_append, splitOnDot, if_neg (h1 c (by simp)),
      ih (fun x hx => h1 x (by simp [hx]))]

/-- The JSON payload of a web auth token (`tokenData` in the source): the
configured username and the expiry as unix seconds. -/
structure TokenData where
  username : List Nat
  expiry : Nat
deriving DecidableEq

/-- The parts of the gomuks web config the auth token layer reads. -/
structure AuthConfig where
  username : List Nat
  tokenKey : List Nat

/-- `hmac.Equal`: constant-time comparison, logically plain equality. -/
def hmacEqual (a b : List Nat) : Bool := a == b

/-- `Gomuks.generateToken`: marshal the token data (username plus an expiry
seven days from now), HMAC it with the configured key, and join the two
base64url parts with a dot.  The JSON encoder and the HMAC (Go standard
library, external collaborators) are passed as function parameters. -/
def generateToken (marshal : TokenData → List Nat)
    (hmacF : List Nat → List Nat → List Nat) (cfg : AuthConfig) (now : Nat) :
    List Nat × Nat :=
  let expiry := now + 7 * 24 * 60 * 60
  let data := marshal ⟨cfg.username, expiry⟩
  let checksum := hmacF cfg.tokenKey data
  (b64Encode data ++ 46 :: b64Encode checksum, expiry)

/-- `Gomuks.validateAuth`: reject tokens longer than 100 bytes, split on the
dot into exactly two parts, base64url-decode both, verify the HMAC checksum,
unmarshal the payload, and require the configured username and an unexpired
expiry (strictly after the validation time). -/
def validateAuth (unmarshal : List Nat → Option TokenData)
    (hmacF : List Nat → List Nat → List Nat) (cfg : AuthConfig) (now : Nat)
    (token : List Nat) : Bool :=
  if 100 < token.length then false
  else
    match splitOnDot token with
    | [p1, p2] =>
      match b64Decode p1 with
      | none => false
      | some rawJSON =>
        match b64Decode p2 with
        | none => false
        | some checksum =>
          if hmacEqual (hmacF cfg.tokenKey rawJSON) checksum then
            match unmarshal rawJSON with
            | none => false
            | some td => td.username == cfg.username && decide (now < td.expiry)
          else false
    | _ => false

/-- C10: round trip of the web auth token.  For every configured username
and token key, every generation time and every validation time strictly
before the seven-day expiry, `validateAuth` accepts the token produced by
`generateToken` — under the claim's hypothesis that the generated token is at
most 100 bytes, and with the external JSON codec required to invert itself on
this payload (with in-range bytes) and the external HMAC to produce in-range
bytes. -/
theorem c10_token_roundtrip (marshal : TokenData → List Nat)
    (unmarshal : List Nat → Option TokenData)
    (hmacF : List Nat → List Nat → List Nat) (cfg : AuthConfig) (t0 t1 : Nat)
    (hjson : unmarshal (marshal ⟨cfg.username, t0 + 7 * 24 * 60 * 60⟩)
      = some ⟨cfg.username, t0 + 7 * 24 * 60 * 60⟩)
    (hdata : ∀ b ∈ marshal ⟨cfg.username, t0 + 7 * 24 * 60 * 60⟩, b < 256)
    (hsum : ∀ b ∈ hmacF cfg.tokenKey (marshal ⟨cfg.username, t0 + 7 * 24 * 60 * 60⟩),
      b < 256)
    (hlen : (generateToken marshal hmacF cfg t0).1.length ≤ 100)
    (hnow : t1 < t0 + 7 * 24 * 60 * 60) :
    validateAuth unmarshal hmacF cfg t1 (generateToken marshal hmacF cfg t0).1 = true := by
  have htok : (generateToken marshal hmacF cfg t0).1
      = b64Encode (marshal ⟨cfg.username, t0 + 7 * 24 * 60 * 60⟩)
        ++ 46 :: b64Encode (hmacF cfg.tokenKey
            (marshal ⟨cfg.username, t0 + 7 * 24 * 60 * 60⟩)) := rfl
  rw [htok] at hlen ⊢
  rw [validateAuth, if_neg (by omega)]
  rw [splitOnDot_two _ _ (b64Encode_ne_dot _) (b64Encode_ne_dot _)]
  simp [b64Decode_b64Encode _ hdata, b64Decode_b64Encode _ hsum, hmacEqual, hjson, hnow]

/-- Concrete stand-in for the external JSON encoder used by the C10 witness:
decimal digits of the expiry (little-endian), a separator, then the username
bytes. -/
def natDigits : Nat → Nat → List Nat
  | 0, _ => []
  | _ + 1, 0 => []
  | fuel + 1, n + 1 => (n + 1) % 10 :: natDigits fuel ((n + 1) / 10)

def marshalTD (td : TokenData) : List Nat := natDigits 10 td.expiry ++ 58 :: td.username

def ofDigits : List Nat → Nat
  | [] => 0
  | d :: ds => d + 10 * ofDigits ds

def unmarshalTD (l : List Nat) : Option TokenData :=
  match l.dropWhile (fun c => decide (c < 10)) with
  | 58 :: u => some ⟨u, ofDigits (l.takeWhile (fun c => decide (c < 10)))⟩
  | _ => none

/-- C10 witness: a concrete configuration, generation time zero, validation
time one, with the concrete codec and a constant test HMAC. -/
theorem c10_token_roundtrip_witness :
    validateAuth unmarshalTD (fun _ _ => [7]) ⟨[97], [107]⟩ 1
      (generateToken marshalTD (fun _ _ => [7]) ⟨[97], [107]⟩ 0).1 = true := by
  exact c10_token_roundtrip marshalTD unmarshalTD (fun _ _ => [7]) ⟨[97], [107]⟩ 0 1
    (by decide) (by decide) (by decide) (by decide) (by decide)

end Auth
